import Mathlib

/-!
Verification development for the AI-Reporting JSON chunking scripts.

The repository's four Python scripts are shallowly embedded below:
  * `src/chunk_large_file.py`      — byte-boundary scanner + size-bounded assembler
  * `src/chunk_large_file_ijson.py`— event-path reconstructor + size-bounded assembler
  * `src/chunk-zainjo-python.py` / `src/chunk-zainjo-ijson.py`
                                   — record-count-bounded (500/chunk) pipelines

Modelling conventions:
  * Python strings are modelled as `List Char`; byte sizes use the standard
    UTF-8 width of each character (`u8size`).
  * JSON values are the mutual inductive `J`/`JArr`/`JObj` (association lists
    keep insertion order, as Python dicts do). JSON numbers are modelled as
    integers; no theorem below depends on float formatting.
  * `json.loads` (Python standard library, an external collaborator of the
    scripts) is modelled by the fuel-based recursive-descent parser `loads`.
  * The file-reading loop's hard-coded 64KB block size is kept as the
    constant 65536; the block size appears as an explicit parameter of the
    loop so that theorems can also speak about the loop at other block sizes.
-/

namespace AIR

mutual
/-- JSON values, mirroring what `json.loads` produces: `None`, `bool`, `int`,
`str`, `list`, `dict` (insertion ordered). -/
inductive J where
  | null : J
  | jbool (b : Bool) : J
  | jnum (n : Int) : J
  | jstr (s : List Char) : J
  | jarr (l : JArr) : J
  | jobj (m : JObj) : J

inductive JArr where
  | nil : JArr
  | cons (hd : J) (tl : JArr) : JArr

inductive JObj where
  | nil : JObj
  | cons (k : List Char) (v : J) (tl : JObj) : JObj
end

deriving instance DecidableEq for J, JArr, JObj

deriving instance DecidableEq for Except

/-- UTF-8 byte width of a character (`len(ch.encode('utf-8'))`). -/
def u8size (c : Char) : Nat :=
  if c.toNat < 0x80 then 1
  else if c.toNat < 0x800 then 2
  else if c.toNat < 0x10000 then 3
  else 4

/-- UTF-8 byte length of a Python string (`len(s.encode('utf-8'))`). -/
def utf8Len (s : List Char) : Nat := (s.map u8size).sum

/-- Hexadecimal digit, used by the `\u00XX` escape of `json.dumps`. -/
def hexDig (n : Nat) : Char :=
  if n < 10 then Char.ofNat (48 + n) else Char.ofNat (87 + n)

/-- The `json.dumps` escaping of one character inside a string literal
(`ensure_ascii=False`: non-ASCII characters are kept raw). -/
def escChar (c : Char) : List Char :=
  if c = '"' then ['\\', '"']
  else if c = '\\' then ['\\', '\\']
  else if c = '\n' then ['\\', 'n']
  else if c = '\t' then ['\\', 't']
  else if c = '\r' then ['\\', 'r']
  else if c = Char.ofNat 8 then ['\\', 'b']
  else if c = Char.ofNat 12 then ['\\', 'f']
  else if c.toNat < 32 then
    ['\\', 'u', '0', '0', hexDig (c.toNat / 16), hexDig (c.toNat % 16)]
  else [c]

/-- Serialized JSON string literal (quotes plus escaped content). -/
def dumpStr (s : List Char) : List Char :=
  '"' :: (s.map escChar).flatten ++ ['"']

/-- Decimal digits of a natural number (fuel-based so the kernel can reduce). -/
def natDigitsAux : Nat → Nat → List Char
  | 0, _ => []
  | fuel + 1, n =>
    if n < 10 then [Char.ofNat (48 + n)]
    else natDigitsAux fuel (n / 10) ++ [Char.ofNat (48 + n % 10)]

/-- Decimal representation of an integer, as written by `json.dumps`. -/
def intRepr (n : Int) : List Char :=
  if n < 0 then '-' :: natDigitsAux (n.natAbs + 1) n.natAbs
  else natDigitsAux (n.natAbs + 1) n.natAbs

mutual
-- the compact and indented serializers walk `J` structurally
/-- Model of `json.dumps(value, ensure_ascii=False)` with the default separators
`', '` and `': '` (no indent) — the serialization whose byte length the ijson
chunker accumulates against the budget. -/
def dumpJ : J → List Char
  | .null => ['n', 'u', 'l', 'l']
  | .jbool true => ['t', 'r', 'u', 'e']
  | .jbool false => ['f', 'a', 'l', 's', 'e']
  | .jnum n => intRepr n
  | .jstr s => dumpStr s
  | .jarr .nil => ['[', ']']
  | .jarr l => '[' :: dumpArr l ++ [']']
  | .jobj .nil => ['{', '}']
  | .jobj m => '{' :: dumpObj m ++ ['}']

/-- Array items joined by `', '`. -/
def dumpArr : JArr → List Char
  | .nil => []
  | .cons x .nil => dumpJ x
  | .cons x tl => dumpJ x ++ ',' :: ' ' :: dumpArr tl

/-- Object entries `"k": v` joined by `', '`. -/
def dumpObj : JObj → List Char
  | .nil => []
  | .cons k v .nil => dumpStr k ++ ':' :: ' ' :: dumpJ v
  | .cons k v tl => dumpStr k ++ ':' :: ' ' :: dumpJ v ++ ',' :: ' ' :: dumpObj tl
end

/-- The `indent * level` spaces written by `json.dump(..., indent=2)`. -/
def ind (d : Nat) : List Char := List.replicate (2 * d) ' '

mutual
/-- Model of `json.dump(value, f, indent=2, ensure_ascii=False)` — the serialization
actually written to each chunk file (`_save_chunk`). `d` is the current
nesting depth. -/
def dumpJInd : Nat → J → List Char
  | _, .null => ['n', 'u', 'l', 'l']
  | _, .jbool true => ['t', 'r', 'u', 'e']
  | _, .jbool false => ['f', 'a', 'l', 's', 'e']
  | _, .jnum n => intRepr n
  | _, .jstr s => dumpStr s
  | _, .jarr .nil => ['[', ']']
  | d, .jarr l => '[' :: '\n' :: indArrItems (d + 1) l ++ '\n' :: ind d ++ [']']
  | _, .jobj .nil => ['{', '}']
  | d, .jobj m => '{' :: '\n' :: indObjItems (d + 1) m ++ '\n' :: ind d ++ ['}']

/-- Indented array items, each on its own line, separated by `',\n'`. -/
def indArrItems : Nat → JArr → List Char
  | _, .nil => []
  | d, .cons x .nil => ind d ++ dumpJInd d x
  | d, .cons x tl => ind d ++ dumpJInd d x ++ ',' :: '\n' :: indArrItems d tl

/-- Indented object entries, each on its own line, separated by `',\n'`. -/
def indObjItems : Nat → JObj → List Char
  | _, .nil => []
  | d, .cons k v .nil => ind d ++ dumpStr k ++ ':' :: ' ' :: dumpJInd d v
  | d, .cons k v tl =>
    ind d ++ dumpStr k ++ ':' :: ' ' :: dumpJInd d v ++ ',' :: '\n' :: indObjItems d tl
end

/-! ## A model of `json.loads`

`json.loads` is the Python standard library's JSON parser, an external
collaborator of the scripts (they call it on every candidate record
substring). It is modelled by a fuel-based recursive-descent parser.
JSON numbers are modelled as integers (see the header note). -/

/-- JSON whitespace accepted between tokens. -/
def isJsonWs (c : Char) : Bool :=
  c = ' ' || c = '\t' || c = '\n' || c = '\r'

/-- Drop leading JSON whitespace. -/
def skipWs : List Char → List Char
  | [] => []
  | c :: rest => if isJsonWs c then skipWs rest else c :: rest

/-- Hex digit value for `\uXXXX` escapes. -/
def hexVal (c : Char) : Option Nat :=
  if '0' ≤ c ∧ c ≤ '9' then some (c.toNat - 48)
  else if 'a' ≤ c ∧ c ≤ 'f' then some (c.toNat - 87)
  else if 'A' ≤ c ∧ c ≤ 'F' then some (c.toNat - 55)
  else none

/-- Parse the body of a JSON string literal (after the opening quote),
returning content and the input after the closing quote. -/
def parseStrBody : Nat → List Char → Option (List Char × List Char)
  | 0, _ => none
  | _ + 1, [] => none
  | fuel + 1, c :: rest =>
    if c = '"' then some ([], rest)
    else if c = '\\' then
      match rest with
      | [] => none
      | e :: rest2 =>
        let dec : Option (Char × List Char) :=
          if e = '"' then some ('"', rest2)
          else if e = '\\' then some ('\\', rest2)
          else if e = '/' then some ('/', rest2)
          else if e = 'b' then some (Char.ofNat 8, rest2)
          else if e = 'f' then some (Char.ofNat 12, rest2)
          else if e = 'n' then some ('\n', rest2)
          else if e = 'r' then some ('\r', rest2)
          else if e = 't' then some ('\t', rest2)
          else if e = 'u' then
            match rest2 with
            | h1 :: h2 :: h3 :: h4 :: rest3 =>
              match hexVal h1, hexVal h2, hexVal h3, hexVal h4 with
              | some a, some b, some g, some d =>
                some (Char.ofNat (((a * 16 + b) * 16 + g) * 16 + d), rest3)
              | _, _, _, _ => none
            | _ => none
          else none
        match dec with
        | some (ch, rest3) =>
          match parseStrBody fuel rest3 with
          | some (s, rem) => some (ch :: s, rem)
          | none => none
        | none => none
    else
      match parseStrBody fuel rest with
      | some (s, rem) => some (c :: s, rem)
      | none => none

/-- Parse a run of decimal digits into a natural number. -/
def parseDigits : List Char → Option (Nat × List Char)
  | cs =>
    let ds := cs.takeWhile Char.isDigit
    if ds = [] then none
    else some (ds.foldl (fun a c => a * 10 + (c.toNat - 48)) 0, cs.drop ds.length)

mutual
/-- Parse one JSON value (leading whitespace already consumed). -/
def parseValue : Nat → List Char → Option (J × List Char)
  | 0, _ => none
  | _ + 1, [] => none
  | fuel + 1, c :: rest =>
    if c = 'n' then
      match rest with
      | 'u' :: 'l' :: 'l' :: rem => some (.null, rem)
      | _ => none
    else if c = 't' then
      match rest with
      | 'r' :: 'u' :: 'e' :: rem => some (.jbool true, rem)
      | _ => none
    else if c = 'f' then
      match rest with
      | 'a' :: 'l' :: 's' :: 'e' :: rem => some (.jbool false, rem)
      | _ => none
    else if c = '"' then
      match parseStrBody (fuel + 1) rest with
      | some (s, rem) => some (.jstr s, rem)
      | none => none
    else if c = '-' then
      match parseDigits rest with
      | some (n, rem) => some (.jnum (-(n : Int)), rem)
      | none => none
    else if c.isDigit then
      match parseDigits (c :: rest) with
      | some (n, rem) => some (.jnum (n : Int), rem)
      | none => none
    else if c = '[' then
      match skipWs rest with
      | ']' :: rem => some (.jarr .nil, rem)
      | rest2 => parseArrItems fuel rest2
    else if c = '{' then
      match skipWs rest with
      | '}' :: rem => some (.jobj .nil, rem)
      | rest2 => parseObjItems fuel rest2
    else none

/-- Parse the items of a non-empty JSON array (after `[` and whitespace). -/
def parseArrItems : Nat → List Char → Option (J × List Char)
  | 0, _ => none
  | fuel + 1, cs =>
    match parseValue fuel cs with
    | some (v, rem) =>
      match skipWs rem with
      | ',' :: rem2 =>
        match parseArrItems fuel (skipWs rem2) with
        | some (.jarr tl, rem3) => some (.jarr (.cons v tl), rem3)
        | _ => none
      | ']' :: rem2 => some (.jarr (.cons v .nil), rem2)
      | _ => none
    | none => none

/-- Parse the entries of a non-empty JSON object (after `{` and whitespace). -/
def parseObjItems : Nat → List Char → Option (J × List Char)
  | 0, _ => none
  | fuel + 1, cs =>
    match cs with
    | '"' :: cs2 =>
      match parseStrBody (fuel + 1) cs2 with
      | some (k, rem) =>
        match skipWs rem with
        | ':' :: rem2 =>
          match parseValue fuel (skipWs rem2) with
          | some (v, rem3) =>
            match skipWs rem3 with
            | ',' :: rem4 =>
              match parseObjItems fuel (skipWs rem4) with
              | some (.jobj tl, rem5) => some (.jobj (.cons k v tl), rem5)
              | _ => none
            | '}' :: rem4 => some (.jobj (.cons k v .nil), rem4)
            | _ => none
          | none => none
        | _ => none
      | none => none
    | _ => none
end

/-- Model of `json.loads`: parse one JSON document; trailing non-whitespace
is an error, as in Python. Returns `none` for `json.JSONDecodeError`. -/
def loads (cs : List Char) : Option J :=
  match parseValue (2 * cs.length + 2) (skipWs cs) with
  | some (v, rem) => if skipWs rem = [] then some v else none
  | none => none

/-! ## Chunk assembler (`LargeJSONChunker`/`LargeJSONChunkerIjson` state and
`_add_conversation_to_chunk`, shared verbatim by both files) -/

/-- One entry of the `chunks` metadata list
(`{'index','conversations','sizeMB'}`). `sizeMB100` models the displayed
`round(size / 2**20, 2)` as hundredths of a megabyte (integer division; exact
at every value occurring in the theorems below, where it is 0). -/
structure ChunkMeta where
  index : Nat
  conversations : Nat
  sizeMB100 : Nat
deriving DecidableEq

/-- The value `round(size / 2**20, 2)` in hundredths of a megabyte. -/
def centiMB (size : Nat) : Nat := size * 100 / 1048576

/-- One chunk file written by `_save_chunk`: the records, the zero-padded
index in its filename, and the accumulated byte size reported for it. -/
structure SavedChunk where
  data : List J
  index : Nat
  size : Nat
deriving DecidableEq

/-- The chunker's record-accumulation state: `self.current_chunk`,
`self.current_chunk_size`, `self.chunk_index`, `self.total_conversations`,
`self.chunks`, plus the chunk files written so far. -/
structure ChunkerState where
  currentChunk : List J
  currentChunkSize : Nat
  chunkIndex : Nat
  totalConversations : Nat
  chunksMeta : List ChunkMeta
  savedChunks : List SavedChunk
deriving DecidableEq

/-- Fields as initialized in `__init__`. -/
def initChunker : ChunkerState :=
  ⟨[], 0, 0, 0, [], []⟩

/-- Save the current chunk, append its metadata, and start a new chunk
(the body of the size-exceeded branch of `_add_conversation_to_chunk`). -/
def flushChunk (ck : ChunkerState) : ChunkerState :=
  { ck with
    savedChunks := ck.savedChunks ++ [⟨ck.currentChunk, ck.chunkIndex, ck.currentChunkSize⟩],
    chunksMeta := ck.chunksMeta ++
      [⟨ck.chunkIndex, ck.currentChunk.length, centiMB ck.currentChunkSize⟩],
    currentChunk := [],
    currentChunkSize := 0,
    chunkIndex := ck.chunkIndex + 1 }

/-- Model of `_add_conversation_to_chunk(conversation, conversation_str)`:
close the current chunk first if it is non-empty and admitting the record
would exceed the byte budget (`self.chunk_size_bytes`), then append. -/
def addConversationToChunk (budget : Nat) (ck : ChunkerState) (conversation : J)
    (conversationStr : List Char) : ChunkerState :=
  let conversationSize := utf8Len conversationStr
  let ck :=
    if budget < ck.currentChunkSize + conversationSize ∧ ck.currentChunk ≠ [] then
      flushChunk ck
    else ck
  { ck with
    currentChunk := ck.currentChunk ++ [conversation],
    currentChunkSize := ck.currentChunkSize + conversationSize,
    totalConversations := ck.totalConversations + 1 }

/-- End-of-run save of the in-progress chunk (`if self.current_chunk:` in
`chunk_file`); it writes the file and appends metadata without resetting
`current_chunk` or bumping `chunk_index`. -/
def finalizeChunker (ck : ChunkerState) : ChunkerState :=
  if ck.currentChunk ≠ [] then
    { ck with
      savedChunks := ck.savedChunks ++ [⟨ck.currentChunk, ck.chunkIndex, ck.currentChunkSize⟩],
      chunksMeta := ck.chunksMeta ++
        [⟨ck.chunkIndex, ck.currentChunk.length, centiMB ck.currentChunkSize⟩] }
  else ck

/-- Admit a list of records (with their serialized strings) then finalize:
the assembler exactly as driven by either pipeline. -/
def runAssembler (budget : Nat) (adm : List (J × List Char)) : ChunkerState :=
  finalizeChunker (adm.foldl (fun ck cs => addConversationToChunk budget ck cs.1 cs.2) initChunker)

/-! ## Byte-boundary scanner (`LargeJSONChunker._process_file_streaming`) -/

/-- The scanner's loop variables: `bracket_depth`, `in_array`,
`object_start` (with `-1` as the no-object sentinel, hence `Int`), the
chunker state mutated through `_add_conversation_to_chunk`, and the list of
buffer offsets reported by the malformed-record skip message. -/
structure ScanVars where
  bracketDepth : Int
  inArray : Bool
  objectStart : Int
  chunker : ChunkerState
  skips : List Int
deriving DecidableEq

/-- Initial loop variables of `_process_file_streaming`. -/
def initScanVars : ScanVars := ⟨0, false, -1, initChunker, []⟩

/-- The body of the scanner's inner `while i < len(buffer)` loop for the
character `c = buffer[i]`. -/
def scanStep (budget : Nat) (buffer : List Char) (i : Nat) (c : Char) (st : ScanVars) :
    ScanVars :=
  if c = '[' ∧ ¬ st.inArray then
    { st with inArray := true, objectStart := (i : Int) + 1 }
  else if c = '{' ∧ st.inArray then
    let st := if st.bracketDepth = 0 then { st with objectStart := (i : Int) } else st
    { st with bracketDepth := st.bracketDepth + 1 }
  else if c = '}' ∧ st.inArray then
    let st1 := { st with bracketDepth := st.bracketDepth - 1 }
    if st1.bracketDepth = 0 ∧ st1.objectStart ≠ -1 then
      let osn := st1.objectStart.toNat
      let objectStr := (buffer.drop osn).take (i + 1 - osn)
      let st2 :=
        match loads objectStr with
        | some conversation =>
          { st1 with chunker := addConversationToChunk budget st1.chunker conversation objectStr }
        | none => { st1 with skips := st1.skips ++ [st1.objectStart] }
      { st2 with objectStart := -1 }
    else st1
  else st

/-- One full pass of the inner loop over `buffer`, starting at index `i`
with `rest = buffer.drop i`. -/
def scanBuffer (budget : Nat) (buffer : List Char) : Nat → List Char → ScanVars → ScanVars
  | _, [], st => st
  | i, c :: rest, st => scanBuffer budget buffer (i + 1) rest (scanStep budget buffer i c st)

/-- Python's `buffer.rfind('}')`: index of the last `'}'`, if any. -/
def lastBraceIdx (l : List Char) : Option Nat :=
  match l.reverse.findIdx? (fun c => c = '}') with
  | some j => some (l.length - 1 - j)
  | none => none

/-- The scanner's whole state across read iterations: the retained buffer
plus the loop variables. -/
structure ScanState where
  buffer : List Char
  vars : ScanVars
deriving DecidableEq

/-- The `while True:` read loop of `_process_file_streaming`: read a block,
append it to the buffer, run a full inner-loop pass over the (whole) buffer,
then trim the buffer exactly as the source does. Also returns the list of
retained-buffer lengths observed after each full pass (an observation only;
it does not influence the run). Structural fuel stands in for the
unbounded `while True`; `input.length + 1` is always enough. -/
def outerLoop (budget blockSize : Nat) :
    Nat → List Char → ScanState → List Nat → ScanState × List Nat
  | 0, _, st, trace => (st, trace)
  | fuel + 1, remaining, st, trace =>
    let block := remaining.take blockSize
    if block = [] then (st, trace)
    else
      let buffer := st.buffer ++ block
      let vars := scanBuffer budget buffer 0 buffer st.vars
      let bv :=
        if vars.objectStart ≠ -1 ∧ vars.objectStart > 0 then
          (buffer.drop vars.objectStart.toNat, { vars with objectStart := 0 })
        else if vars.bracketDepth = 0 ∧ vars.inArray then
          match lastBraceIdx buffer with
          | some k => (buffer.drop (k + 1), vars)
          | none => (buffer, vars)
        else (buffer, vars)
      outerLoop budget blockSize fuel (remaining.drop blockSize) ⟨bv.1, bv.2⟩
        (trace ++ [bv.1.length])

/-- Model of `_process_file_streaming` with the source's hard-coded 64KB read blocks. -/
def processFileStreaming (budget : Nat) (input : List Char) : ScanState × List Nat :=
  outerLoop budget 65536 (input.length + 1) input ⟨[], initScanVars⟩ []

/-! ## Run summary (`_generate_summary`) and the whole run (`chunk_file`) -/

/-- The summary object written at the end of a run. `originalSizeGB100`
models the displayed `round(size_gb, 2)` as hundredths of a gigabyte.
The wall-clock `createdAt` stamp and the `processingStats` block (each of
whose entries is computed purely from `totalConversations` and `chunks`)
are not modelled. -/
structure Summary where
  originalFile : String
  originalSizeGB100 : Nat
  totalConversations : Nat
  totalChunks : Nat
  targetChunkSizeMB : Nat
  chunks : List ChunkMeta
deriving DecidableEq

/-- Build the summary from the final chunker state. -/
def mkSummary (name : String) (inputBytes mb : Nat) (ck : ChunkerState) : Summary :=
  { originalFile := name
    originalSizeGB100 := inputBytes * 100 / 1073741824
    totalConversations := ck.totalConversations
    totalChunks := ck.chunksMeta.length
    targetChunkSizeMB := mb
    chunks := ck.chunksMeta }

/-- The result of `chunk_file`: final scanner state, chunker state after the
final save, the buffer-length trace, and the summary. The source writes the
summary and prints a success message unconditionally after the streaming
pass returns. -/
structure RunResult where
  scan : ScanState
  chunker : ChunkerState
  trace : List Nat
  summary : Summary

/-- Model of `LargeJSONChunker.chunk_file` with the read-block size kept as an
explicit parameter (the source hard-codes 65536): stream, save the final
chunk if non-empty, and generate the summary. -/
def chunkFileB (mb blockSize : Nat) (name : String) (input : List Char) : RunResult :=
  let budget := mb * 1024 * 1024
  let str := outerLoop budget blockSize (input.length + 1) input ⟨[], initScanVars⟩ []
  let ck := finalizeChunker str.1.vars.chunker
  { scan := str.1, chunker := ck, trace := str.2,
    summary := mkSummary name (utf8Len input) mb ck }

/-- Model of `LargeJSONChunker.chunk_file` with the source's 64KB read blocks. -/
def chunkFile (mb : Nat) (name : String) (input : List Char) : RunResult :=
  chunkFileB mb 65536 name input

/-- All records across the run's chunk files, in chunk-index order. -/
def allRecords (ck : ChunkerState) : List J :=
  (ck.savedChunks.map SavedChunk.data).flatten

/-! ## Event-path reconstructor (`LargeJSONChunkerIjson`) -/

namespace JArr

/-- View a model array as a Lean list. -/
def toList : JArr → List J
  | .nil => []
  | .cons x tl => x :: toList tl

/-- Build a model array from a Lean list. -/
def ofList : List J → JArr
  | [] => .nil
  | x :: tl => .cons x (ofList tl)

/-- Python's `len(current)`. -/
def length (l : JArr) : Nat := l.toList.length

end JArr

namespace JObj

/-- View a model dict as an ordered association list. -/
def toList : JObj → List (List Char × J)
  | .nil => []
  | .cons k v tl => (k, v) :: toList tl

/-- Dict lookup (`current[key]` / `key in current`). -/
def get? : JObj → List Char → Option J
  | .nil, _ => none
  | .cons k' v tl, k => if k' = k then some v else get? tl k

/-- Dict assignment `current[key] = v`: update an existing key in place,
otherwise append (Python dicts preserve insertion order). -/
def setKey : JObj → List Char → J → JObj
  | .nil, k, v => .cons k v .nil
  | .cons k' v' tl, k, v => if k' = k then .cons k' v tl else .cons k' v' (setKey tl k v)

end JObj

/-- Python's `str.split('.')` on a path. -/
def splitDots : List Char → List (List Char)
  | [] => [[]]
  | c :: rest =>
    let r := splitDots rest
    if c = '.' then [] :: r
    else
      match r with
      | s :: ss => (c :: s) :: ss
      | [] => [[c]]

/-- Python's `key.isdigit()` for the ASCII paths ijson produces. -/
def isdigitL (s : List Char) : Bool := !s.isEmpty && s.all Char.isDigit

/-- Python's `int(key)` for a digit-only key. -/
def toNatDigits (s : List Char) : Nat :=
  s.foldl (fun a c => a * 10 + (c.toNat - 48)) 0

/-- Python's `path.count('.')`. -/
def countDots (s : List Char) : Nat := s.count '.'

/-- Python's `path.startswith('item.')`. -/
def startsWithItemDot : List Char → Bool
  | 'i' :: 't' :: 'e' :: 'm' :: '.' :: _ => true
  | _ => false

/-- Python's `path.replace('item.', '')`: drop every (left-to-right, non-overlapping)
occurrence of `item.`. -/
def stripItemDots : List Char → List Char
  | 'i' :: 't' :: 'e' :: 'm' :: '.' :: rest => stripItemDots rest
  | c :: rest => c :: stripItemDots rest
  | [] => []

/-- The loop `while len(current) <= key: current.append(pad)`. -/
def padTo (pad : J) (l : List J) (n : Nat) : List J :=
  if l.length ≤ n then l ++ List.replicate (n + 1 - l.length) pad else l

/-- The recursive walk of `_set_nested_value` over the split key list.
`Except.error ()` models a `TypeError` raised by indexing/assigning a
container of the wrong kind (which would propagate and abort the run);
`.ok` with the object unchanged models the walk's silent early `return` /
fall-through branches. -/
def setKeysE : J → List (List Char) → J → Except Unit J
  | cur, [], _ => .ok cur
  | cur, [k], v =>
    if isdigitL k then
      match cur with
      | .jarr l =>
        let fk := toNatDigits k
        .ok (.jarr (JArr.ofList ((padTo J.null l.toList fk).set fk v)))
      | _ => .ok cur
    else
      match cur with
      | .jobj m => .ok (.jobj (m.setKey k v))
      | _ => .error ()
  | cur, k :: k2 :: rest, v =>
    if isdigitL k then
      match cur with
      | .jarr l =>
        let ky := toNatDigits k
        let l2 := padTo (J.jobj .nil) l.toList ky
        match setKeysE (l2.getD ky J.null) (k2 :: rest) v with
        | .ok child => .ok (.jarr (JArr.ofList (l2.set ky child)))
        | .error e => .error e
      | _ => .ok cur
    else
      match cur with
      | .jobj m =>
        match setKeysE ((m.get? k).getD (.jobj .nil)) (k2 :: rest) v with
        | .ok child => .ok (.jobj (m.setKey k child))
        | .error e => .error e
      | _ => .error ()

/-- Model of `_set_nested_value(obj, path, value)`. -/
def setNestedValue (obj : J) (path : List Char) (value : J) : Except Unit J :=
  if path = [] then .ok obj else setKeysE obj (splitDots path) value

/-- Model of `_build_object_from_ijson_event` on one event triple. -/
def buildObjectFromIjsonEvent (obj : J) (pfx : List Char) (event : String) (value : J) :
    Except Unit J :=
  if pfx = [] ∨ startsWithItemDot pfx then
    let path := if startsWithItemDot pfx then stripItemDots pfx else pfx
    if event = "string" ∨ event = "number" ∨ event = "boolean" ∨ event = "null" then
      setNestedValue obj path value
    else if event = "start_map" then
      if path ≠ [] then setNestedValue obj path (.jobj .nil) else .ok obj
    else if event = "start_array" then
      if path ≠ [] then setNestedValue obj path (.jarr .nil) else .ok obj
    else .ok obj
  else .ok obj

/-- One `(prefix, event, value)` triple yielded by `ijson.parse`. -/
structure Ev where
  pfx : List Char
  event : String
  value : J
deriving DecidableEq

/-- The ijson loop's state: `current_object`, `in_array`, the chunker, and
whether a `TypeError` has been raised (aborting the run). -/
structure IjsonState where
  currentObject : J
  inArray : Bool
  chunker : ChunkerState
  err : Bool
deriving DecidableEq

/-- State before the event loop of `_process_file_with_ijson`. -/
def initIjson : IjsonState := ⟨.jobj .nil, false, initChunker, false⟩

/-- The test `if current_object:` — truthiness of the accumulated dict. -/
def objTruthy : J → Bool
  | .jobj .nil => false
  | .jobj _ => true
  | _ => false

/-- The ijson `_add_conversation_to_chunk(conversation)`: it serializes the
record itself (`json.dumps(conversation, ensure_ascii=False)`) to obtain the
size charged against the budget. -/
def addConversationToChunkIjson (budget : Nat) (ck : ChunkerState) (conversation : J) :
    ChunkerState :=
  addConversationToChunk budget ck conversation (dumpJ conversation)

/-- The body of the `for prefix, event, value in parser:` loop for one event
(the `break` on the top-level `end_array` is handled by the driver). -/
def stepIjsonEv (budget : Nat) (st : IjsonState) (e : Ev) : IjsonState :=
  if st.err then st
  else if e.pfx = [] ∧ e.event = "start_array" then { st with inArray := true }
  else if st.inArray ∧ e.event = "start_map" ∧ countDots e.pfx = 0 then
    { st with currentObject := .jobj .nil }
  else if st.inArray ∧ e.event = "end_map" ∧ countDots e.pfx = 0 then
    let st1 :=
      if objTruthy st.currentObject then
        { st with chunker := addConversationToChunkIjson budget st.chunker st.currentObject }
      else st
    { st1 with currentObject := .jobj .nil }
  else if st.inArray then
    match buildObjectFromIjsonEvent st.currentObject e.pfx e.event e.value with
    | .ok o => { st with currentObject := o }
    | .error _ => { st with err := true }
  else st

/-- The event loop of `_process_file_with_ijson`, stopping at the top-level
`end_array` (`break`). -/
def processIjsonEvents (budget : Nat) : List Ev → IjsonState → IjsonState
  | [], st => st
  | e :: rest, st =>
    if e.pfx = [] ∧ e.event = "end_array" then st
    else processIjsonEvents budget rest (stepIjsonEv budget st e)

/-- Result of `LargeJSONChunkerIjson.chunk_file`: when a `TypeError`
propagates out of the event loop the final save does not happen and the run
fails (`ok = false`). -/
structure IjsonRunResult where
  state : IjsonState
  chunker : ChunkerState
  ok : Bool
deriving DecidableEq

/-- Model of `LargeJSONChunkerIjson.chunk_file` over an event stream. -/
def runIjsonChunkFile (budget : Nat) (events : List Ev) : IjsonRunResult :=
  let st := processIjsonEvents budget events initIjson
  if st.err then ⟨st, st.chunker, false⟩
  else ⟨st, finalizeChunker st.chunker, true⟩

/-- Child path of a dict entry in ijson's event protocol. -/
def childKey (p k : List Char) : List Char :=
  if p = [] then k else p ++ '.' :: k

/-- Child path of an array item in ijson's event protocol. -/
def childItem (p : List Char) : List Char :=
  if p = [] then "item".toList else p ++ ".item".toList

mutual
-- Modelled from ijson's documented event protocol (`ijson.parse`), the
-- external streaming parser both ijson scripts are layered on.
/-- Events emitted for one JSON value at path `p`. -/
def ijsonVal : List Char → J → List Ev
  | p, .null => [⟨p, "null", .null⟩]
  | p, .jbool b => [⟨p, "boolean", .jbool b⟩]
  | p, .jnum n => [⟨p, "number", .jnum n⟩]
  | p, .jstr s => [⟨p, "string", .jstr s⟩]
  | p, .jarr l =>
    ⟨p, "start_array", .null⟩ :: ijsonArrEvents (childItem p) l ++ [⟨p, "end_array", .null⟩]
  | p, .jobj m =>
    ⟨p, "start_map", .null⟩ :: ijsonObjEvents p m ++ [⟨p, "end_map", .null⟩]

/-- Events of the items of an array (all share the `...item` path). -/
def ijsonArrEvents : List Char → JArr → List Ev
  | _, .nil => []
  | pi, .cons x tl => ijsonVal pi x ++ ijsonArrEvents pi tl

/-- Events of the entries of a dict (`map_key` then the value's events). -/
def ijsonObjEvents : List Char → JObj → List Ev
  | _, .nil => []
  | p, .cons k v tl => ⟨p, "map_key", .jstr k⟩ :: ijsonVal (childKey p k) v ++ ijsonObjEvents p tl
end

/-- Events of a whole document that is a top-level array with the given
elements — the shape both chunkers consume. -/
def docEvents (l : List J) : List Ev :=
  ⟨[], "start_array", .null⟩ :: (l.map (ijsonVal "item".toList)).flatten
    ++ [⟨[], "end_array", .null⟩]

/-! ## Zainjo pipelines (`chunk-zainjo-python.py` / `chunk-zainjo-ijson.py`)

Both scripts run the identical filter-and-count loop over the elements of
`ActiveChatters` (one materializes the array with `json.load`, the other
streams it with `ijson.items(file, 'ActiveChatters.item')`); the loop is
embedded once below. -/

/-- Python's `chatter.get(key)` (returns `None` when absent). The Zainjo records are
objects; a non-dict element would raise `AttributeError` in both scripts. -/
def zainjoGet (c : J) (k : List Char) : J :=
  match c with
  | .jobj m => (m.get? k).getD .null
  | _ => .null

/-- Python truthiness of a JSON value, as used by
`if chatter.get('SenderID') and chatter.get('ChatHistory'):`. -/
def pyTruthy : J → Bool
  | .null => false
  | .jbool b => b
  | .jnum n => decide (n ≠ 0)
  | .jstr s => !s.isEmpty
  | .jarr .nil => false
  | .jarr _ => true
  | .jobj .nil => false
  | .jobj _ => true

/-- The record-validation test of both Zainjo scripts. -/
def zainjoKeep (c : J) : Bool :=
  pyTruthy (zainjoGet c "SenderID".toList) && pyTruthy (zainjoGet c "ChatHistory".toList)

/-- The constant `max_chatters_per_chunk = 500`. -/
def maxChattersPerChunk : Nat := 500

/-- Loop state: `current_chunk_data`, `chatters_processed`, `current_chunk`,
and the chunks written by `save_chunk` as `(chunkNumber, chatters)` pairs. -/
structure ZainjoState where
  currentChunkData : List J
  chattersProcessed : Nat
  currentChunk : Nat
  saved : List (Nat × List J)
deriving DecidableEq

/-- The loop body for one chatter. -/
def zainjoStep (st : ZainjoState) (chatter : J) : ZainjoState :=
  if zainjoKeep chatter then
    let d := st.currentChunkData ++ [chatter]
    let st1 := { st with currentChunkData := d,
                         chattersProcessed := st.chattersProcessed + 1 }
    if maxChattersPerChunk ≤ d.length then
      { st1 with saved := st1.saved ++ [(st1.currentChunk, d)],
                 currentChunk := st1.currentChunk + 1,
                 currentChunkData := [] }
    else st1
  else st

/-- Whole Zainjo run over the `ActiveChatters` elements: the loop plus the
final `if current_chunk_data:` save. -/
def chunkZainjo (activeChatters : List J) : ZainjoState :=
  let st := activeChatters.foldl zainjoStep ⟨[], 0, 0, []⟩
  if st.currentChunkData ≠ [] then
    { st with saved := st.saved ++ [(st.currentChunk, st.currentChunkData)],
              currentChunk := st.currentChunk + 1 }
  else st

/-! ## Concrete inputs used by the theorems -/

/-- A field value long enough that the record holding it spans a read-block
boundary at block size 8. -/
def c1str : List Char := List.replicate 10 'x'

/-- Source array: one large record followed by one small record. -/
def c1src : List J :=
  [.jobj (.cons "a".toList (.jstr c1str) .nil),
   .jobj (.cons "b".toList (.jnum 1) .nil)]

/-- The serialized source array (valid JSON by construction). -/
def c1input : List Char := dumpJ (.jarr (JArr.ofList c1src))

/-- A record whose string value contains a closing brace. -/
def c3elem : J := .jobj (.cons "a".toList (.jstr "\x7d".toList) .nil)

/-- The input `[{"a": "}"}]` — a valid one-element array (braces inside a quoted
string value). -/
def c3input : List Char := dumpJ (.jarr (.cons c3elem .nil))

/-- The single record of the C4 input. -/
def c4record : J := .jobj .nil

/-- The character `[` followed by 16 spaces and one 2-byte record: valid JSON whose
leading whitespace spans two full 8-byte read blocks. -/
def c4input : List Char := '[' :: List.replicate 16 ' ' ++ "{}]".toList

/-- A truncated document: end of input at bracket depth 1. -/
def c5input : List Char := "[\x7b\"a\":1".toList

/-- A one-record array with no malformed records. -/
def c6inputA : List Char := "[\x7b\"a\": 1\x7d]".toList

/-- The same record followed by a malformed object `{"b":}`. -/
def c6inputB : List Char := "[\x7b\"a\": 1\x7d,\x7b\"b\":\x7d]".toList

/-- A malformed object followed by a valid record. -/
def c6inputC : List Char := "[\x7b\"b\":\x7d,\x7b\"a\": 1\x7d]".toList

/-- The summary produced by both C6 runs. -/
def c6summary : Summary :=
  { originalFile := "conv.json", originalSizeGB100 := 0, totalConversations := 1,
    totalChunks := 1, targetChunkSizeMB := 100, chunks := [⟨0, 1, 0⟩] }

/-- The ijson assembler driven over a list of records and finalized, as
`_process_file_with_ijson` + `chunk_file` do. -/
def runAssemblerIjson (budget : Nat) (convs : List J) : ChunkerState :=
  finalizeChunker (convs.foldl (addConversationToChunkIjson budget) initChunker)

/-- The event that makes the ijson driver `break`: a top-level
`end_array`. -/
def isTopEndArray (e : Ev) : Prop := e.pfx = [] ∧ e.event = "end_array"

/-- A Python dict value (the shape of every Zainjo/conversation record). -/
def isObjB : J → Bool
  | .jobj _ => true
  | _ => false

/-- A Python list value. -/
def isArrB : J → Bool
  | .jarr _ => true
  | _ => false

/-- The guarantee claimed for every flushed chunk: it is non-empty, and its
accumulated size respects the budget except when it is a single record that
alone exceeds the budget. -/
def chunkOk (budget : Nat) (c : SavedChunk) : Prop :=
  c.data ≠ [] ∧ (c.size ≤ budget ∨ (c.data.length = 1 ∧ budget < c.size))

/-- Invariant maintained by the assembler: every saved chunk is `chunkOk`,
the in-progress chunk already satisfies the same size guarantee, and an
empty in-progress chunk has accumulated size zero. -/
def assemblerInv (budget : Nat) (ck : ChunkerState) : Prop :=
  (∀ c ∈ ck.savedChunks, chunkOk budget c) ∧
  (ck.currentChunkSize ≤ budget ∨
    (ck.currentChunk.length = 1 ∧ budget < ck.currentChunkSize)) ∧
  (ck.currentChunk = [] → ck.currentChunkSize = 0)

/-- Bookkeeping invariant: `total_conversations` counts exactly the records
held by the saved chunks plus the in-progress chunk. -/
def countInv (ck : ChunkerState) : Prop :=
  ck.totalConversations
    = (ck.savedChunks.map (fun c => c.data.length)).sum + ck.currentChunk.length

/-- Invariant of the Zainjo loop relative to the filtered records admitted
so far (`acc`): the concatenation of saved chunks plus the in-progress
chunk is `acc`, the processed counter is its length, the in-progress chunk
is strictly under the cap, every saved chunk is exactly at the cap, and
chunk numbers are assigned `0, 1, ...` in order. -/
def zainjoInv (acc : List J) (st : ZainjoState) : Prop :=
  (st.saved.map Prod.snd).flatten ++ st.currentChunkData = acc ∧
  st.chattersProcessed = acc.length ∧
  st.currentChunkData.length < maxChattersPerChunk ∧
  (∀ p ∈ st.saved, p.2.length = maxChattersPerChunk) ∧
  st.saved.map Prod.fst = List.range st.saved.length ∧
  st.currentChunk = st.saved.length

/-- A canonical valid Zainjo record, used by the C10 witness. -/
def zainjoGood : J :=
  .jobj (.cons "SenderID".toList (.jstr "s".toList)
    (.cons "ChatHistory".toList (.jarr (.cons .null .nil)) .nil))

/-- Size-accounting invariant of the ijson assembler: the running size is
the sum of the compact serialization lengths of the in-progress records,
and every saved chunk's recorded size is the same sum over its records
(and it is non-empty). -/
def sizeInv (ck : ChunkerState) : Prop :=
  ck.currentChunkSize = (ck.currentChunk.map fun r => utf8Len (dumpJ r)).sum ∧
  (∀ c ∈ ck.savedChunks,
    c.size = (c.data.map fun r => utf8Len (dumpJ r)).sum ∧ c.data ≠ [])

/-! # Theorems -/

set_option maxRecDepth 20000
set_option maxHeartbeats 1600000

/-- The function `_add_conversation_to_chunk` preserves the assembler invariant. -/
theorem addConversation_inv (budget : Nat) (ck : ChunkerState) (conv : J) (s : List Char)
    (h : assemblerInv budget ck) :
    assemblerInv budget (addConversationToChunk budget ck conv s) := by
  obtain ⟨hs, hcur, hemp⟩ := h
  simp only [addConversationToChunk]
  split
  · rename_i hcond
    refine ⟨?_, ?_, ?_⟩
    · intro c hc
      simp only [flushChunk, List.mem_append, List.mem_singleton] at hc
      rcases hc with hc | hc
      · exact hs c hc
      · subst hc
        exact ⟨hcond.2, hcur⟩
    · rcases le_or_lt (utf8Len s) budget with hle | hlt
      · exact Or.inl (by simpa [flushChunk] using hle)
      · exact Or.inr (by simpa [flushChunk] using hlt)
    · simp [flushChunk]
  · rename_i hcond
    refine ⟨hs, ?_, ?_⟩
    · by_cases hce : ck.currentChunk = []
      · have h0 : ck.currentChunkSize = 0 := hemp hce
        rcases le_or_lt (utf8Len s) budget with hle | hlt
        · exact Or.inl (by simp [h0, hle])
        · exact Or.inr (by simp [hce, h0, hlt])
      · have : ¬ budget < ck.currentChunkSize + utf8Len s := fun hx => hcond ⟨hx, hce⟩
        exact Or.inl (Nat.le_of_not_lt this)
    · simp

/-- The assembler invariant holds after admitting any record sequence. -/
theorem foldl_addConversation_inv (budget : Nat) :
    ∀ (adm : List (J × List Char)) (ck : ChunkerState), assemblerInv budget ck →
      assemblerInv budget
        (adm.foldl (fun ck cs => addConversationToChunk budget ck cs.1 cs.2) ck)
  | [], _, h => h
  | _ :: adm, ck, h =>
    foldl_addConversation_inv budget adm _ (addConversation_inv budget ck _ _ h)

/-- Every chunk saved after finalization satisfies the guarantee. -/
theorem finalize_chunkOk (budget : Nat) (ck : ChunkerState) (h : assemblerInv budget ck) :
    ∀ c ∈ (finalizeChunker ck).savedChunks, chunkOk budget c := by
  obtain ⟨hs, hcur, _⟩ := h
  unfold finalizeChunker
  split
  · rename_i hne
    intro c hc
    simp only [List.mem_append, List.mem_singleton] at hc
    rcases hc with hc | hc
    · exact hs c hc
    · subst hc
      exact ⟨hne, hcur⟩
  · exact hs

/-- C5: the claim says a run whose input ends at non-zero brace depth must
abort with a structural error and write no success summary. The code has no
such check: on the truncated input `[{"a":1` the streaming pass returns
normally at depth 1 and `chunk_file` writes a normal summary reporting zero
conversations and zero chunks. -/
theorem C5_truncated_input_completes_with_success_summary :
    (chunkFile 100 "t.json" c5input).scan.vars.bracketDepth = 1 ∧
    (chunkFile 100 "t.json" c5input).summary
      = { originalFile := "t.json", originalSizeGB100 := 0, totalConversations := 0,
          totalChunks := 0, targetChunkSizeMB := 100, chunks := [] } := by
  constructor <;> decide

/-- C3: the claim says braces inside quoted string values are excluded from
depth counting, so such records are emitted intact. The scanner counts every
brace: on `[{"a": "}"}]` — the serialization of a one-element array whose
single record is itself valid standalone JSON (first conjunct) — the brace
inside the string closes the candidate early, the record is skipped as
malformed at buffer offset 1, and nothing is emitted. -/
theorem C3_brace_inside_string_splits_record :
    loads (dumpJ c3elem) = some c3elem ∧
    allRecords (chunkFile 100 "t.json" c3input).chunker = [] ∧
    (chunkFile 100 "t.json" c3input).scan.vars.skips = [1] := by
  refine ⟨?_, ?_, ?_⟩ <;> decide

/-- C1: the claim says concatenating all chunks' records reproduces the
non-skipped source elements with matching counts, in particular when a
record spans a read-block boundary. The read loop `outerLoop` is one
function for every block size — the final conjunct records that the source's
run is exactly the block-size-65536 instance. At block size 8, on the
serialization of a two-element source array whose first record spans the
first block boundary, the retained buffer is re-scanned from index 0 on the
next pass, the open object's braces are counted twice, the depth never
returns to 0, and the run emits zero records while skipping none:
`0 ≠ 2 - 0`. -/
theorem C1_record_spanning_block_boundary_loses_records :
    c1src.length = 2 ∧
    allRecords (chunkFileB 100 8 "t.json" c1input).chunker = [] ∧
    (chunkFileB 100 8 "t.json" c1input).scan.vars.skips = [] ∧
    (chunkFileB 100 8 "t.json" c1input).summary.totalConversations = 0 ∧
    chunkFile = fun mb => chunkFileB mb 65536 := by
  refine ⟨rfl, ?_, ?_, ?_, rfl⟩ <;> decide

/-- C4: the claim says the retained buffer is bounded by the largest single
record plus one read block. On a valid input whose leading whitespace spans
several read blocks (block size 8 here; the trimming logic is identical for
every block size, including the source's 65536), no `'}'` exists in the
buffer and nothing is trimmed, so after the second pass the buffer holds 15
characters even though the input's only record serializes to 2 bytes:
`2 + 8 < 15`. -/
theorem C4_buffer_exceeds_record_plus_block_bound :
    (chunkFileB 100 8 "t.json" c4input).trace = [7, 15, 1] ∧
    allRecords (chunkFileB 100 8 "t.json" c4input).chunker = [c4record] ∧
    utf8Len "{}".toList + 8 < 15 := by
  refine ⟨?_, ?_, ?_⟩ <;> decide

/-- C6 (counterexample): the claim says the count of skipped records is
recorded in the final summary. It is not: the runs on `[{"a": 1}]` and on
`[{"a": 1},{"b":}]` (one record skipped at buffer offset 10) produce equal
summaries, so no summary field records — or even determines — the skipped
count. -/
theorem C6_counterexample_summary_blind_to_skips :
    (chunkFile 100 "conv.json" c6inputA).summary = c6summary ∧
    (chunkFile 100 "conv.json" c6inputB).summary = c6summary ∧
    (chunkFile 100 "conv.json" c6inputA).scan.vars.skips = [] ∧
    (chunkFile 100 "conv.json" c6inputB).scan.vars.skips = [10] := by
  refine ⟨?_, ?_, ?_, ?_⟩ <;> decide

/-- The function `_add_conversation_to_chunk` preserves the bookkeeping invariant. -/
theorem addConversation_countInv (budget : Nat) (ck : ChunkerState) (conv : J)
    (s : List Char) (h : countInv ck) :
    countInv (addConversationToChunk budget ck conv s) := by
  unfold countInv at h ⊢
  simp only [addConversationToChunk]
  split
  · simp [flushChunk, h]
  · simp [h]
    omega

/-- The function `scanStep` preserves the bookkeeping invariant. -/
theorem scanStep_countInv (budget : Nat) (buffer : List Char) (i : Nat) (c : Char)
    (st : ScanVars) (h : countInv st.chunker) :
    countInv (scanStep budget buffer i c st).chunker := by
  simp only [scanStep]
  by_cases h1 : c = '[' ∧ ¬ st.inArray
  · simp only [if_pos h1]; exact h
  · simp only [if_neg h1]
    by_cases h2 : c = '{' ∧ st.inArray
    · simp only [if_pos h2]
      by_cases h3 : st.bracketDepth = 0
      · simp only [if_pos h3]; exact h
      · simp only [if_neg h3]; exact h
    · simp only [if_neg h2]
      by_cases h4 : c = '}' ∧ st.inArray
      · simp only [if_pos h4]
        by_cases h5 : st.bracketDepth - 1 = 0 ∧ st.objectStart ≠ -1
        · simp only [if_pos h5]
          cases hload :
              loads ((buffer.drop st.objectStart.toNat).take (i + 1 - st.objectStart.toNat)) with
          | some conv =>
            simp only [hload]
            exact addConversation_countInv budget _ _ _ h
          | none => simp only [hload]; exact h
        · simp only [if_neg h5]; exact h
      · simp only [if_neg h4]; exact h

/-- A full inner-loop pass preserves the bookkeeping invariant. -/
theorem scanBuffer_countInv (budget : Nat) (buffer : List Char) :
    ∀ (rest : List Char) (i : Nat) (st : ScanVars), countInv st.chunker →
      countInv (scanBuffer budget buffer i rest st).chunker
  | [], _, _, h => h
  | c :: rest, i, st, h =>
    scanBuffer_countInv budget buffer rest (i + 1) _
      (scanStep_countInv budget buffer i c st h)

/-- The read loop preserves the bookkeeping invariant. -/
theorem outerLoop_countInv (budget blockSize : Nat) :
    ∀ (fuel : Nat) (remaining : List Char) (st : ScanState) (trace : List Nat),
      countInv st.vars.chunker →
      countInv (outerLoop budget blockSize fuel remaining st trace).1.vars.chunker := by
  intro fuel
  induction fuel with
  | zero => intro remaining st trace h; exact h
  | succ fuel ih =>
    intro remaining st trace h
    simp only [outerLoop]
    split
    · exact h
    · apply ih
      have hvars : countInv (scanBuffer budget (st.buffer ++ remaining.take blockSize) 0
          (st.buffer ++ remaining.take blockSize) st.vars).chunker :=
        scanBuffer_countInv budget _ _ 0 st.vars h
      split
      · exact hvars
      · split
        · split <;> exact hvars
        · exact hvars

/-- After finalization, `total_conversations` equals the number of records
across the saved chunk files. -/
theorem finalize_count (ck : ChunkerState) (h : countInv ck) :
    (finalizeChunker ck).totalConversations
      = (allRecords (finalizeChunker ck)).length := by
  unfold countInv at h
  unfold finalizeChunker allRecords
  split
  · simp [h]
    rfl
  · rename_i hemp
    simp only [ne_eq, not_not] at hemp
    simp [h, hemp]
    rfl

/-- C6 (amended): a malformed record boundary produces a non-fatal skip
signal carrying the reported (buffer-relative) offset and the run continues
with subsequent records; skipped records are never absorbed into the
processed count — for every run, the summary's `totalConversations` equals
exactly the number of records stored in chunk files. (The skip count itself
is only logged, not recorded in the summary; see the counterexample.)
Concretely, on `[{"b":},{"a": 1}]` the malformed first object is skipped at
offset 1 and the valid second record is still chunked. -/
theorem C6_amended_skips_nonfatal_and_uncounted :
    (∀ (mb bs : Nat) (name : String) (input : List Char),
      (chunkFileB mb bs name input).summary.totalConversations
        = (allRecords (chunkFileB mb bs name input).chunker).length) ∧
    (chunkFile 100 "conv.json" c6inputC).scan.vars.skips = [1] ∧
    allRecords (chunkFile 100 "conv.json" c6inputC).chunker
      = [.jobj (.cons "a".toList (.jnum 1) .nil)] := by
  refine ⟨?_, by decide, by decide⟩
  intro mb bs name input
  have hinit : countInv initScanVars.chunker := by
    unfold countInv initScanVars initChunker
    simp
  exact finalize_count _
    (outerLoop_countInv (mb * 1024 * 1024) bs (input.length + 1) input
      ⟨[], initScanVars⟩ [] hinit)

/-- C2: for every admitted record sequence, (i) every flushed chunk is
non-empty and its accumulated size is within the budget unless it is a
single record that alone exceeds the budget, and (ii) admitting a record
closes the current chunk first exactly when the chunk is non-empty and the
accumulated size plus the record's serialized byte size exceeds the
budget. -/
theorem C2_assembler_flush_policy (budget : Nat) (adm : List (J × List Char)) :
    (∀ c ∈ (runAssembler budget adm).savedChunks, chunkOk budget c) ∧
    (∀ (ck : ChunkerState) (conv : J) (s : List Char),
      ck.savedChunks.length < (addConversationToChunk budget ck conv s).savedChunks.length
        ↔ (ck.currentChunk ≠ [] ∧ budget < ck.currentChunkSize + utf8Len s)) := by
  constructor
  · have hinit : assemblerInv budget initChunker := by
      refine ⟨by simp [initChunker], Or.inl ?_, fun _ => rfl⟩
      simp [initChunker]
    exact finalize_chunkOk budget _ (foldl_addConversation_inv budget adm initChunker hinit)
  · intro ck conv s
    by_cases hcond : budget < ck.currentChunkSize + utf8Len s ∧ ck.currentChunk ≠ []
    · simp only [addConversationToChunk, if_pos hcond, flushChunk]
      refine iff_of_true ?_ ⟨hcond.2, hcond.1⟩
      simp
    · simp only [addConversationToChunk, if_neg hcond]
      refine iff_of_false ?_ (fun h => hcond ⟨h.2, h.1⟩)
      simp

/-- C2 witness: with a 10-byte budget, admitting records of 8 and 6 bytes
flushes the first chunk; the theorem applied there certifies its
guarantee. -/
theorem C2_assembler_flush_policy_witness :
    chunkOk 10 ⟨[J.null], 0, 8⟩ :=
  (C2_assembler_flush_policy 10
    [(J.null, "12345678".toList), (J.null, "abcdef".toList)]).1
    ⟨[J.null], 0, 8⟩ (by decide)

/-- Round trip between model arrays and Lean lists. -/
theorem JArr.toList_ofList : ∀ l : List J, (JArr.ofList l).toList = l
  | [] => rfl
  | _ :: tl => by simp [JArr.ofList, JArr.toList, JArr.toList_ofList tl]

/-- The function `padTo` under its guard is an append of padding. -/
theorem padTo_eq (pad : J) (l : List J) (n : Nat) (h : l.length ≤ n) :
    padTo pad l n = l ++ List.replicate (n + 1 - l.length) pad := by
  unfold padTo
  rw [if_pos h]

/-- Reading a replicate inside its range gives the pad. -/
theorem replicate_getD (pad d : J) : ∀ (m i : Nat), i < m →
    (List.replicate m pad).getD i d = pad
  | _ + 1, 0, _ => rfl
  | m + 1, i + 1, h =>
    replicate_getD pad d m i (Nat.lt_of_succ_lt_succ h)

/-- Setting the last slot of a replicate. -/
theorem replicate_set_last (pad v : J) : ∀ m : Nat,
    (List.replicate (m + 1) pad).set m v = List.replicate m pad ++ [v]
  | 0 => rfl
  | m + 1 => by
    show pad :: (List.replicate (m + 1) pad).set m v
        = pad :: (List.replicate m pad ++ [v])
    rw [replicate_set_last pad v m]

/-- Reading past a prefix. -/
theorem getD_append_skip (l l2 : List J) (d : J) : ∀ (n : Nat), l.length ≤ n →
    (l ++ l2).getD n d = l2.getD (n - l.length) d := by
  induction l with
  | nil => intro n _; simp
  | cons a t ih =>
    intro n hn
    cases n with
    | zero => simp at hn
    | succ n =>
      have := ih n (by simpa using hn)
      simpa [List.getD] using this

/-- Setting past a prefix. -/
theorem set_append_skip (l l2 : List J) (v : J) : ∀ (n : Nat), l.length ≤ n →
    (l ++ l2).set n v = l ++ l2.set (n - l.length) v := by
  induction l with
  | nil => intro n _; simp
  | cons a t ih =>
    intro n hn
    cases n with
    | zero => simp at hn
    | succ n =>
      have := ih n (by simpa using hn)
      simp [List.set, this]

/-- The element `padTo` guarantees at index `n` is the pad itself. -/
theorem padTo_getD (pad d : J) (l : List J) (n : Nat) (h : l.length ≤ n) :
    (padTo pad l n).getD n d = pad := by
  rw [padTo_eq pad l n h, getD_append_skip _ _ _ _ h]
  exact replicate_getD pad d _ _ (by omega)

/-- Setting index `n` of the padded list replaces the final pad. -/
theorem padTo_set (pad v : J) (l : List J) (n : Nat) (h : l.length ≤ n) :
    (padTo pad l n).set n v = l ++ List.replicate (n - l.length) pad ++ [v] := by
  rw [padTo_eq pad l n h, set_append_skip _ _ _ _ h]
  have hm : n + 1 - l.length = (n - l.length) + 1 := by omega
  rw [hm, replicate_set_last pad v (n - l.length), List.append_assoc]

/-- Dict assignment preserves insertion order, appending new keys last. -/
theorem setKey_keys (k : List Char) (v : J) : ∀ m : JObj,
    (m.setKey k v).toList.map Prod.fst
      = if (m.get? k).isSome then m.toList.map Prod.fst
        else m.toList.map Prod.fst ++ [k]
  | .nil => by simp [JObj.setKey, JObj.get?, JObj.toList]
  | .cons k' v' tl => by
    by_cases hkk : k' = k
    · simp [JObj.setKey, JObj.get?, JObj.toList, hkk]
    · simp only [JObj.setKey, JObj.get?, JObj.toList, hkk, setKey_keys k v tl,
        List.map_cons, if_neg hkk]
      by_cases hget : (tl.get? k).isSome = true <;> simp [hget]

/-- C7 (counterexample): the claim says every purely numeric segment
creates or extends a list whose index gaps are filled with null
placeholders. In the code, an intermediate numeric segment fills gaps with
empty dicts `{}` (first conjunct: `a.2.b` on `{"a": []}` produces
`[{}, {}, {"b": 7}]`, and `{} ≠ null`), and a numeric segment never creates
a list: on a non-list container the value is silently dropped (third
conjunct: `a.0` on `{}` leaves `{"a": {}}` with no list and no value). -/
theorem C7_counterexample_gap_padding_and_no_list_creation :
    setNestedValue (.jobj (.cons "a".toList (.jarr .nil) .nil)) "a.2.b".toList (.jnum 7)
      = .ok (.jobj (.cons "a".toList (.jarr (JArr.ofList
          [.jobj .nil, .jobj .nil, .jobj (.cons "b".toList (.jnum 7) .nil)])) .nil)) ∧
    (J.jobj .nil ≠ J.null) ∧
    setNestedValue (.jobj .nil) "a.0".toList (.jnum 5)
      = .ok (.jobj (.cons "a".toList (.jobj .nil) .nil)) := by
  refine ⟨by decide, by decide, by decide⟩

/-- C7 (amended): the path walk of `_set_nested_value`, segment by segment:
(1) an intermediate numeric segment addressing an existing list extends it
with empty-dict placeholders up to the index and recurses into the (fresh)
dict there; (2) the final numeric segment extends an existing list with
null placeholders and sets the value; (3) a numeric segment whose container
is not a list silently leaves the object unchanged; (4) an intermediate
non-numeric segment on a dict reuses the entry or creates an empty dict on
first reference, then recurses; (5) the final non-numeric segment on a dict
sets the key; (6) dict assignment preserves insertion order, appending new
keys at the end. -/
theorem C7_amended_set_nested_value_walk :
    (∀ (l : List J) (k k2 : List Char) (rest : List (List Char)) (v : J),
      isdigitL k = true → l.length ≤ toNatDigits k →
      setKeysE (.jarr (JArr.ofList l)) (k :: k2 :: rest) v
        = (setKeysE (.jobj .nil) (k2 :: rest) v).map (fun child =>
            .jarr (JArr.ofList (l ++
              List.replicate (toNatDigits k - l.length) (.jobj .nil) ++ [child])))) ∧
    (∀ (l : List J) (k : List Char) (v : J),
      isdigitL k = true → l.length ≤ toNatDigits k →
      setKeysE (.jarr (JArr.ofList l)) [k] v
        = .ok (.jarr (JArr.ofList (l ++
            List.replicate (toNatDigits k - l.length) J.null ++ [v])))) ∧
    (∀ (cur : J) (k : List Char) (keys : List (List Char)) (v : J),
      isdigitL k = true → isArrB cur = false →
      setKeysE cur (k :: keys) v = .ok cur) ∧
    (∀ (m : JObj) (k k2 : List Char) (rest : List (List Char)) (v : J),
      isdigitL k = false →
      setKeysE (.jobj m) (k :: k2 :: rest) v
        = (setKeysE ((m.get? k).getD (.jobj .nil)) (k2 :: rest) v).map
            (fun child => .jobj (m.setKey k child))) ∧
    (∀ (m : JObj) (k : List Char) (v : J),
      isdigitL k = false →
      setKeysE (.jobj m) [k] v = .ok (.jobj (m.setKey k v))) ∧
    (∀ (m : JObj) (k : List Char) (v : J),
      (m.setKey k v).toList.map Prod.fst
        = if (m.get? k).isSome then m.toList.map Prod.fst
          else m.toList.map Prod.fst ++ [k]) := by
  refine ⟨?_, ?_, ?_, ?_, ?_, ?_⟩
  · intro l k k2 rest v hk hlen
    simp only [setKeysE, hk, if_true, JArr.toList_ofList]
    rw [padTo_getD _ J.null l _ hlen]
    cases hres : setKeysE (.jobj .nil) (k2 :: rest) v with
    | ok child =>
      simp only [Except.map]
      rw [padTo_set _ _ l _ hlen]
    | error e => simp [Except.map]
  · intro l k v hk hlen
    simp only [setKeysE, hk, if_true, JArr.toList_ofList]
    rw [padTo_set _ _ l _ hlen]
  · intro cur k keys v hk hcur
    cases keys with
    | nil =>
      cases cur <;> simp_all [setKeysE, isArrB]
    | cons k2 rest =>
      cases cur <;> simp_all [setKeysE, isArrB]
  · intro m k k2 rest v hk
    simp only [setKeysE, hk, if_false, Bool.false_eq_true]
    cases hres : setKeysE ((m.get? k).getD (.jobj .nil)) (k2 :: rest) v with
    | ok child => simp [Except.map]
    | error e => simp [Except.map]
  · intro m k v hk
    simp [setKeysE, hk]
  · exact fun m k v => setKey_keys k v m

/-- C7 witness: the final-numeric-segment clause applied at index 1 of an
empty list: one null placeholder, then the value. -/
theorem C7_amended_set_nested_value_walk_witness :
    setKeysE (.jarr (JArr.ofList [])) ["1".toList] (.jnum 5)
      = .ok (.jarr (JArr.ofList (([] : List J) ++
          List.replicate (toNatDigits "1".toList - List.length ([] : List J)) J.null
          ++ [.jnum 5]))) :=
  C7_amended_set_nested_value_walk.2.1 [] "1".toList (.jnum 5) (by decide) (by decide)

/-- One Zainjo loop iteration preserves the invariant, extending the
admitted-records list by the record when it passes the filter. -/
theorem zainjoStep_inv (acc : List J) (st : ZainjoState) (c : J)
    (h : zainjoInv acc st) :
    zainjoInv (acc ++ if zainjoKeep c then [c] else []) (zainjoStep st c) := by
  obtain ⟨hflat, hproc, hlt, hsaved, hidx, hnum⟩ := h
  by_cases hk : zainjoKeep c
  · simp only [zainjoStep, if_pos hk]
    by_cases hfull : maxChattersPerChunk ≤ (st.currentChunkData ++ [c]).length
    · have hlen : (st.currentChunkData ++ [c]).length = maxChattersPerChunk := by
        simp at hfull ⊢
        omega
      refine ⟨?_, ?_, ?_, ?_, ?_, ?_⟩ <;> simp only [if_pos hfull, hk, if_true]
      · simp [← hflat]
      · simp [hproc, hk]
      · simp [maxChattersPerChunk]
      · intro p hp
        simp only [List.mem_append, List.mem_singleton] at hp
        rcases hp with hp | hp
        · exact hsaved p hp
        · subst hp
          exact hlen
      · simp [hidx, hnum, List.range_succ]
      · simp [hnum]
    · refine ⟨?_, ?_, ?_, ?_, ?_, ?_⟩ <;> simp only [if_neg hfull, hk, if_true]
      · simp [← hflat]
      · simp [hproc, hk]
      · simp only [List.length_append, List.length_singleton]
        simp at hfull
        omega
      · exact hsaved
      · exact hidx
      · exact hnum
  · simp only [zainjoStep, if_neg hk, hk, if_false]
    exact ⟨by simp [hflat], by simp [hproc], hlt, hsaved, hidx, hnum⟩

/-- The whole Zainjo loop preserves the invariant. -/
theorem zainjo_foldl_inv :
    ∀ (l : List J) (acc : List J) (st : ZainjoState), zainjoInv acc st →
      zainjoInv (acc ++ l.filter zainjoKeep) (l.foldl zainjoStep st)
  | [], acc, st, h => by simpa using h
  | c :: t, acc, st, h => by
    have hstep := zainjoStep_inv acc st c h
    have := zainjo_foldl_inv t (acc ++ if zainjoKeep c then [c] else []) _ hstep
    simp only [List.foldl_cons]
    by_cases hk : zainjoKeep c
    · simpa [hk, List.filter_cons, List.append_assoc] using this
    · simpa [hk, List.filter_cons] using this

/-- C10: in the Zainjo pipelines every record lacking a truthy `SenderID`
or truthy `ChatHistory` is silently excluded — the chunks' concatenation is
exactly the filtered record sequence, in order, and the processed total
counts only those (the loop has no error or skip channel at all); chunk
numbers are `0..N-1` in order, every chunk except possibly the last holds
exactly 500 records, and every chunk is non-empty with at most 500. -/
theorem C10_zainjo_filter_and_chunking (activeChatters : List J) :
    ((chunkZainjo activeChatters).saved.map Prod.snd).flatten
        = activeChatters.filter zainjoKeep ∧
    (chunkZainjo activeChatters).chattersProcessed
        = (activeChatters.filter zainjoKeep).length ∧
    (chunkZainjo activeChatters).saved.map Prod.fst
        = List.range (chunkZainjo activeChatters).saved.length ∧
    (∀ p ∈ (chunkZainjo activeChatters).saved.dropLast,
        p.2.length = maxChattersPerChunk) ∧
    (∀ p ∈ (chunkZainjo activeChatters).saved,
        p.2 ≠ [] ∧ p.2.length ≤ maxChattersPerChunk) := by
  have hinit : zainjoInv [] ⟨[], 0, 0, []⟩ := by
    refine ⟨rfl, rfl, by simp [maxChattersPerChunk], by simp, rfl, rfl⟩
  have hinv := zainjo_foldl_inv activeChatters [] _ hinit
  simp only [List.nil_append] at hinv
  simp only [chunkZainjo]
  set stf := activeChatters.foldl zainjoStep ⟨[], 0, 0, []⟩ with hstf
  obtain ⟨hflat, hproc, hlt, hsaved, hidx, hnum⟩ := hinv
  have hchunk_ne : ∀ p ∈ stf.saved, p.2 ≠ [] ∧ p.2.length ≤ maxChattersPerChunk := by
    intro p hp
    have hlen := hsaved p hp
    constructor
    · intro hnil
      rw [hnil] at hlen
      simp [maxChattersPerChunk] at hlen
    · exact le_of_eq hlen
  split
  · rename_i hne
    refine ⟨?_, ?_, ?_, ?_, ?_⟩
    · simpa using hflat
    · simpa using hproc
    · simp only [List.map_append, List.map_cons, List.map_nil, List.length_append,
        List.length_cons, List.length_nil]
      rw [hidx, hnum, ← List.range_succ]
    · intro p hp
      simp only [List.dropLast_concat] at hp
      exact hsaved p hp
    · intro p hp
      simp only [List.mem_append, List.mem_singleton] at hp
      rcases hp with hp | hp
      · exact hchunk_ne p hp
      · subst hp
        exact ⟨hne, le_of_lt hlt⟩
  · rename_i hemp
    simp only [ne_eq, not_not] at hemp
    refine ⟨?_, ?_, hidx, ?_, hchunk_ne⟩
    · rw [← hflat, hemp]
      simp
    · exact hproc
    · intro p hp
      exact hsaved p ((List.dropLast_sublist _).subset hp)

/-- C10 witness: one valid record makes one final chunk `(0, [record])`;
the theorem certifies it non-empty and within the 500 cap. -/
theorem C10_zainjo_filter_and_chunking_witness :
    (((0 : Nat), [zainjoGood]) : Nat × List J).2 ≠ [] ∧
    (((0 : Nat), [zainjoGood]) : Nat × List J).2.length ≤ maxChattersPerChunk :=
  (C10_zainjo_filter_and_chunking [zainjoGood]).2.2.2.2 (0, [zainjoGood]) (by decide)

/-- UTF-8 length distributes over append. -/
theorem utf8Len_append (a b : List Char) : utf8Len (a ++ b) = utf8Len a + utf8Len b := by
  simp [utf8Len]

/-- UTF-8 length of a cons. -/
theorem utf8Len_cons (c : Char) (a : List Char) :
    utf8Len (c :: a) = u8size c + utf8Len a := by
  simp [utf8Len]

/-- UTF-8 length of a single character. -/
theorem utf8Len_singleton (c : Char) : utf8Len [c] = u8size c := by
  simp [utf8Len]

/-- UTF-8 length of the empty string. -/
theorem utf8Len_nil : utf8Len [] = 0 := rfl

/-- A run of spaces is one byte per space. -/
theorem utf8Len_replicate_space : ∀ n : Nat, utf8Len (List.replicate n ' ') = n
  | 0 => rfl
  | n + 1 => by
    show utf8Len (' ' :: List.replicate n ' ') = n + 1
    rw [utf8Len_cons, utf8Len_replicate_space n,
      show u8size ' ' = 1 from by decide]
    omega

/-- The indentation run is `2 * d` bytes. -/
theorem utf8Len_ind (d : Nat) : utf8Len (ind d) = 2 * d := by
  simp [ind, utf8Len_replicate_space]

mutual
/-- The compact serialization is never longer than the indented one. -/
theorem dumpJ_le_dumpJInd : ∀ (v : J) (d : Nat),
    utf8Len (dumpJ v) ≤ utf8Len (dumpJInd d v)
  | .null, _ => le_refl _
  | .jbool b, _ => by cases b <;> exact le_refl _
  | .jnum _, _ => le_refl _
  | .jstr _, _ => le_refl _
  | .jarr .nil, _ => le_refl _
  | .jarr (.cons x tl), d => by
    have h := dumpArr_le_indArrItems (.cons x tl) (d + 1)
    have e1 : u8size '[' = 1 := by decide
    have e2 : u8size ']' = 1 := by decide
    have e3 : u8size '\n' = 1 := by decide
    simp only [dumpJ, dumpJInd, utf8Len_cons, utf8Len_append, utf8Len_singleton,
      utf8Len_ind, e1, e2, e3]
    omega
  | .jobj .nil, _ => le_refl _
  | .jobj (.cons k v tl), d => by
    have h := dumpObj_le_indObjItems (.cons k v tl) (d + 1)
    have e1 : u8size '{' = 1 := by decide
    have e2 : u8size '}' = 1 := by decide
    have e3 : u8size '\n' = 1 := by decide
    simp only [dumpJ, dumpJInd, utf8Len_cons, utf8Len_append, utf8Len_singleton,
      utf8Len_ind, e1, e2, e3]
    omega

/-- Compact array items are never longer than the indented items. -/
theorem dumpArr_le_indArrItems : ∀ (l : JArr) (d : Nat),
    utf8Len (dumpArr l) ≤ utf8Len (indArrItems d l)
  | .nil, _ => le_refl _
  | .cons x .nil, d => by
    have h := dumpJ_le_dumpJInd x d
    simp only [dumpArr, indArrItems, utf8Len_append, utf8Len_ind]
    omega
  | .cons x (.cons y tl), d => by
    have h1 := dumpJ_le_dumpJInd x d
    have h2 := dumpArr_le_indArrItems (.cons y tl) d
    have e1 : u8size ',' = 1 := by decide
    have e2 : u8size ' ' = 1 := by decide
    have e3 : u8size '\n' = 1 := by decide
    simp only [dumpArr, indArrItems, utf8Len_append, utf8Len_cons, utf8Len_ind,
      e1, e2, e3]
    omega

/-- Compact object entries are never longer than the indented entries. -/
theorem dumpObj_le_indObjItems : ∀ (m : JObj) (d : Nat),
    utf8Len (dumpObj m) ≤ utf8Len (indObjItems d m)
  | .nil, _ => le_refl _
  | .cons k v .nil, d => by
    have h := dumpJ_le_dumpJInd v d
    have e1 : u8size ':' = 1 := by decide
    have e2 : u8size ' ' = 1 := by decide
    simp only [dumpObj, indObjItems, utf8Len_append, utf8Len_cons, utf8Len_ind,
      e1, e2]
    omega
  | .cons k v (.cons k2 v2 tl), d => by
    have h1 := dumpJ_le_dumpJInd v d
    have h2 := dumpObj_le_indObjItems (.cons k2 v2 tl) d
    have e1 : u8size ':' = 1 := by decide
    have e2 : u8size ' ' = 1 := by decide
    have e3 : u8size ',' = 1 := by decide
    have e4 : u8size '\n' = 1 := by decide
    simp only [dumpObj, indObjItems, utf8Len_append, utf8Len_cons, utf8Len_ind,
      e1, e2, e3, e4]
    omega
end

/-- The sum of the records' compact sizes is at most the size of the
depth-1 indented item block of the chunk file. -/
theorem sum_le_indItems : ∀ (data : List J),
    (data.map fun r => utf8Len (dumpJ r)).sum
      ≤ utf8Len (indArrItems 1 (JArr.ofList data))
  | [] => by simp [JArr.ofList, indArrItems, utf8Len]
  | [x] => by
    have h := dumpJ_le_dumpJInd x 1
    simp only [JArr.ofList, indArrItems, List.map_cons, List.map_nil, List.sum_cons,
      List.sum_nil, utf8Len_append, utf8Len_ind]
    omega
  | x :: y :: rest => by
    have h1 := dumpJ_le_dumpJInd x 1
    have h2 := sum_le_indItems (y :: rest)
    have e3 : u8size ',' = 1 := by decide
    have e4 : u8size '\n' = 1 := by decide
    simp only [JArr.ofList, indArrItems, List.map_cons, List.sum_cons,
      utf8Len_append, utf8Len_cons, utf8Len_ind, e3, e4] at h2 ⊢
    omega

/-- For a non-empty chunk, the accumulated compact size is strictly less
than the byte length of the `indent=2` chunk file. -/
theorem sum_lt_indented_file (data : List J) (h : data ≠ []) :
    (data.map fun r => utf8Len (dumpJ r)).sum
      < utf8Len (dumpJInd 0 (.jarr (JArr.ofList data))) := by
  cases data with
  | nil => exact absurd rfl h
  | cons x rest =>
    have hle := sum_le_indItems (x :: rest)
    have e1 : u8size '[' = 1 := by decide
    have e2 : u8size ']' = 1 := by decide
    have e3 : u8size '\n' = 1 := by decide
    simp only [JArr.ofList, dumpJInd, utf8Len_cons, utf8Len_append, utf8Len_singleton,
      utf8Len_ind, utf8Len_nil, e1, e2, e3, Nat.zero_add] at hle ⊢
    omega

/-- The ijson `_add_conversation_to_chunk` preserves the size invariant. -/
theorem addIjson_sizeInv (budget : Nat) (ck : ChunkerState) (conv : J)
    (h : sizeInv ck) : sizeInv (addConversationToChunkIjson budget ck conv) := by
  obtain ⟨hcur, hsaved⟩ := h
  unfold addConversationToChunkIjson
  simp only [addConversationToChunk]
  split
  · rename_i hcond
    constructor
    · simp [flushChunk]
    · intro c hc
      simp only [flushChunk, List.mem_append, List.mem_singleton] at hc
      rcases hc with hc | hc
      · exact hsaved c hc
      · subst hc
        exact ⟨hcur, hcond.2⟩
  · constructor
    · simp [hcur]
    · exact hsaved

/-- The size invariant holds after admitting any record list. -/
theorem foldl_addIjson_sizeInv (budget : Nat) :
    ∀ (convs : List J) (ck : ChunkerState), sizeInv ck →
      sizeInv (convs.foldl (addConversationToChunkIjson budget) ck)
  | [], _, h => h
  | _ :: convs, ck, h =>
    foldl_addIjson_sizeInv budget convs _ (addIjson_sizeInv budget ck _ h)

/-- C9: in the ijson pipeline, every flushed chunk's recorded byte size is
the sum of its records' compact (`json.dumps`, default separators, no
indent) UTF-8 serialization lengths — the quantity charged against the
budget and echoed into the summary's per-chunk size — and this is strictly
less than the byte length of the chunk file actually written, which is
serialized with two-space indentation. -/
theorem C9_chunk_size_is_compact_sum_below_file_size (budget : Nat) (convs : List J) :
    ∀ c ∈ (runAssemblerIjson budget convs).savedChunks,
      c.size = (c.data.map fun r => utf8Len (dumpJ r)).sum ∧
      c.size < utf8Len (dumpJInd 0 (.jarr (JArr.ofList c.data))) := by
  intro c hc
  have hinit : sizeInv initChunker := by
    exact ⟨rfl, by simp [initChunker]⟩
  have hinv := foldl_addIjson_sizeInv budget convs initChunker hinit
  have hfin : c.size = (c.data.map fun r => utf8Len (dumpJ r)).sum ∧ c.data ≠ [] := by
    obtain ⟨hcur, hsaved⟩ := hinv
    unfold runAssemblerIjson finalizeChunker at hc
    revert hc
    split
    · rename_i hne
      intro hc
      simp only [List.mem_append, List.mem_singleton] at hc
      rcases hc with hc | hc
      · exact hsaved c hc
      · subst hc
        exact ⟨hcur, hne⟩
    · intro hc
      exact hsaved c hc
  refine ⟨hfin.1, ?_⟩
  rw [hfin.1]
  exact sum_lt_indented_file c.data hfin.2

/-- C9 witness: a run admitting one `null` record under a 100-byte budget
flushes the chunk `⟨[null], 0, 4⟩`; the theorem certifies its size
accounting and the strict file-size bound. -/
theorem C9_chunk_size_is_compact_sum_below_file_size_witness :
    (⟨[J.null], 0, 4⟩ : SavedChunk).size
        = (([J.null].map fun r => utf8Len (dumpJ r)).sum) ∧
    (⟨[J.null], 0, 4⟩ : SavedChunk).size
        < utf8Len (dumpJInd 0 (.jarr (JArr.ofList [J.null]))) :=
  C9_chunk_size_is_compact_sum_below_file_size 100 [J.null]
    ⟨[J.null], 0, 4⟩ (by decide)

/-- An errored state absorbs every event. -/
theorem stepIjson_err (budget : Nat) (st : IjsonState) (e : Ev) (h : st.err = true) :
    stepIjsonEv budget st e = st := by
  simp [stepIjsonEv, h]

/-- An errored state absorbs every event list. -/
theorem processIjson_err (budget : Nat) :
    ∀ (l : List Ev) (st : IjsonState), st.err = true →
      processIjsonEvents budget l st = st
  | [], _, _ => rfl
  | e :: rest, st, h => by
    simp only [processIjsonEvents]
    split
    · rfl
    · rw [stepIjson_err budget st e h]
      exact processIjson_err budget rest st h

/-- A step never leaves the array once entered. -/
theorem stepIjson_inArray (budget : Nat) (st : IjsonState) (e : Ev)
    (h : st.inArray = true) : (stepIjsonEv budget st e).inArray = true := by
  simp only [stepIjsonEv]
  repeat' split
  all_goals first | rfl | exact h

/-- Processing never leaves the array once entered. -/
theorem processIjson_inArray (budget : Nat) :
    ∀ (l : List Ev) (st : IjsonState), st.inArray = true →
      (processIjsonEvents budget l st).inArray = true
  | [], _, h => h
  | e :: rest, st, h => by
    simp only [processIjsonEvents]
    split
    · exact h
    · exact processIjson_inArray budget rest _ (stepIjson_inArray budget st e h)

/-- Processing splits over append when the first part cannot `break`. -/
theorem processIjson_append (budget : Nat) :
    ∀ (a b : List Ev) (st : IjsonState),
      (∀ e ∈ a, e.pfx ≠ []) →
      processIjsonEvents budget (a ++ b) st
        = processIjsonEvents budget b (processIjsonEvents budget a st)
  | [], _, _, _ => rfl
  | e :: a, b, st, h => by
    have hne : e.pfx ≠ [] := h e (List.mem_cons_self e a)
    have hnb : ¬(e.pfx = [] ∧ e.event = "end_array") := fun hc => hne hc.1
    simp only [List.cons_append, processIjsonEvents, if_neg hnb]
    exact processIjson_append budget a b _ (fun x hx => h x (List.mem_cons_of_mem e hx))

/-- The array-item path is never empty. -/
theorem childItem_ne (p : List Char) : childItem p ≠ [] := by
  unfold childItem
  split <;> simp

/-- A child-key path under a non-empty path is non-empty. -/
theorem childKey_ne (p k : List Char) (h : p ≠ []) : childKey p k ≠ [] := by
  unfold childKey
  rw [if_neg h]
  simp [h]

mutual
/-- All ijson events of a value at a non-empty path carry non-empty paths. -/
theorem ijsonVal_pfx_ne : ∀ (v : J) (p : List Char), p ≠ [] →
    ∀ e ∈ ijsonVal p v, e.pfx ≠ []
  | .null, p, hp, e, he => by
    simp only [ijsonVal, List.mem_singleton] at he
    subst he; exact hp
  | .jbool b, p, hp, e, he => by
    simp only [ijsonVal, List.mem_singleton] at he
    subst he; exact hp
  | .jnum n, p, hp, e, he => by
    simp only [ijsonVal, List.mem_singleton] at he
    subst he; exact hp
  | .jstr s, p, hp, e, he => by
    simp only [ijsonVal, List.mem_singleton] at he
    subst he; exact hp
  | .jarr l, p, hp, e, he => by
    simp only [ijsonVal, List.mem_cons, List.mem_append, List.mem_singleton,
      or_assoc] at he
    rcases he with he | he | he | he
    · subst he; exact hp
    · exact ijsonArrEvents_pfx_ne l (childItem p) (childItem_ne p) e he
    · subst he; exact hp
    · simp at he
  | .jobj m, p, hp, e, he => by
    simp only [ijsonVal, List.mem_cons, List.mem_append, List.mem_singleton,
      or_assoc] at he
    rcases he with he | he | he | he
    · subst he; exact hp
    · exact ijsonObjEvents_pfx_ne m p hp e he
    · subst he; exact hp
    · simp at he

/-- Likewise for all events of array items. -/
theorem ijsonArrEvents_pfx_ne : ∀ (l : JArr) (pi : List Char), pi ≠ [] →
    ∀ e ∈ ijsonArrEvents pi l, e.pfx ≠ []
  | .nil, _, _, e, he => by simp [ijsonArrEvents] at he
  | .cons x tl, pi, hp, e, he => by
    simp only [ijsonArrEvents, List.mem_append] at he
    rcases he with he | he
    · exact ijsonVal_pfx_ne x pi hp e he
    · exact ijsonArrEvents_pfx_ne tl pi hp e he

/-- Likewise for all events of dict entries. -/
theorem ijsonObjEvents_pfx_ne : ∀ (m : JObj) (p : List Char), p ≠ [] →
    ∀ e ∈ ijsonObjEvents p m, e.pfx ≠ []
  | .nil, _, _, e, he => by simp [ijsonObjEvents] at he
  | .cons k v tl, p, hp, e, he => by
    simp only [ijsonObjEvents, List.mem_cons, List.mem_append, or_assoc] at he
    rcases he with he | he | he
    · subst he; exact hp
    · exact ijsonVal_pfx_ne v (childKey p k) (childKey_ne p k hp) e he
    · exact ijsonObjEvents_pfx_ne tl p hp e he
end

/-- All events of a sequence of top-level elements have non-empty paths. -/
theorem flatElems_pfx_ne (l : List J) :
    ∀ e ∈ (l.map (ijsonVal "item".toList)).flatten, e.pfx ≠ [] := by
  intro e he
  rw [List.mem_flatten] at he
  obtain ⟨a, ha, hea⟩ := he
  rw [List.mem_map] at ha
  obtain ⟨v, _, rfl⟩ := ha
  exact ijsonVal_pfx_ne v "item".toList (by decide) e hea

/-- Driver equation: a non-`break` event is stepped and processing
continues. -/
theorem processIjson_cons_noBreak (budget : Nat) (e : Ev) (rest : List Ev)
    (st : IjsonState) (h : ¬(e.pfx = [] ∧ e.event = "end_array")) :
    processIjsonEvents budget (e :: rest) st
      = processIjsonEvents budget rest (stepIjsonEv budget st e) := by
  simp only [processIjsonEvents, if_neg h]

/-- A `start_map` event with a non-empty zero-dot path resets the
accumulated object. -/
theorem step_start_map_resets (budget : Nat) (st : IjsonState) (e : Ev)
    (herr : st.err = false) (hA : st.inArray = true) (hpfx : e.pfx ≠ [])
    (hev : e.event = "start_map") (hdots : countDots e.pfx = 0) :
    stepIjsonEv budget st e = { st with currentObject := .jobj .nil } := by
  simp [stepIjsonEv, herr, hA, hpfx, hev, hdots]

/-- An `end_map` event with a non-empty zero-dot path leaves an empty
accumulated object, the array flag up and the error flag untouched. -/
theorem step_end_map_resets (budget : Nat) (st : IjsonState) (e : Ev)
    (herr : st.err = false) (hA : st.inArray = true) (hpfx : e.pfx ≠ [])
    (hev : e.event = "end_map") (hdots : countDots e.pfx = 0) :
    (stepIjsonEv budget st e).currentObject = .jobj .nil ∧
    (stepIjsonEv budget st e).inArray = true ∧
    (stepIjsonEv budget st e).err = false := by
  simp only [stepIjsonEv, herr, hA, hpfx, hev, hdots]
  repeat' split
  all_goals simp_all [hA, herr]

/-- An `end_map` event on an empty accumulated object emits nothing:
`if current_object:` is false, and the state is unchanged. -/
theorem step_end_map_empty (budget : Nat) (st : IjsonState) (e : Ev)
    (herr : st.err = false) (hA : st.inArray = true) (hpfx : e.pfx ≠ [])
    (hev : e.event = "end_map") (hdots : countDots e.pfx = 0)
    (hcur : st.currentObject = .jobj .nil) :
    stepIjsonEv budget st e = st := by
  have h1 : ¬ st.err = true := by simp [herr]
  have h2 : ¬ (e.pfx = [] ∧ e.event = "start_array") := fun hc => hpfx hc.1
  have h3 : ¬ (st.inArray = true ∧ e.event = "start_map" ∧ countDots e.pfx = 0) := by
    intro hc
    rw [hev] at hc
    exact absurd hc.2.1 (by decide)
  have h5 : st.inArray = true ∧ e.event = "end_map" ∧ countDots e.pfx = 0 :=
    ⟨hA, hev, hdots⟩
  have h4 : ¬ objTruthy st.currentObject = true := by rw [hcur]; simp [objTruthy]
  unfold stepIjsonEv
  rw [if_neg h1, if_neg h2, if_neg h3, if_pos h5, if_neg h4, ← hcur]

/-- Processing the events of one top-level object element either raises the
error flag or ends with the accumulated object reset. -/
theorem processIjson_obj_elem (budget : Nat) (m : JObj) (st : IjsonState)
    (hA : st.inArray = true) (herr : st.err = false) :
    (processIjsonEvents budget (ijsonVal "item".toList (.jobj m)) st).err = true ∨
    ((processIjsonEvents budget (ijsonVal "item".toList (.jobj m)) st).inArray = true ∧
     (processIjsonEvents budget (ijsonVal "item".toList (.jobj m)) st).currentObject
       = .jobj .nil) := by
  have hval : ijsonVal "item".toList (.jobj m)
      = ⟨"item".toList, "start_map", .null⟩ ::
        (ijsonObjEvents "item".toList m ++ [⟨"item".toList, "end_map", .null⟩]) := rfl
  rw [hval, processIjson_cons_noBreak budget ⟨"item".toList, "start_map", .null⟩ _ _
    (by decide)]
  rw [step_start_map_resets budget st ⟨"item".toList, "start_map", .null⟩ herr hA
    (by decide) rfl (by decide)]
  rw [processIjson_append budget _ _ _ (ijsonObjEvents_pfx_ne m "item".toList (by decide))]
  have hA2 : (processIjsonEvents budget (ijsonObjEvents "item".toList m)
      { st with currentObject := .jobj .nil }).inArray = true :=
    processIjson_inArray budget _ _ hA
  by_cases herr2 : (processIjsonEvents budget (ijsonObjEvents "item".toList m)
      { st with currentObject := .jobj .nil }).err = true
  · left
    rw [processIjson_err budget _ _ herr2]
    exact herr2
  · right
    simp only [Bool.not_eq_true] at herr2
    rw [processIjson_cons_noBreak budget ⟨"item".toList, "end_map", .null⟩ _ _ (by decide)]
    obtain ⟨hc, hi, _⟩ :=
      step_end_map_resets budget _ ⟨"item".toList, "end_map", .null⟩ herr2 hA2
        (by decide) rfl (by decide)
    exact ⟨hi, hc⟩

/-- Processing any number of top-level object elements preserves the
"errored or clean" invariant. -/
theorem processIjson_elems_inv (budget : Nat) :
    ∀ (l : List J) (st : IjsonState),
      (st.err = true ∨ (st.inArray = true ∧ st.currentObject = .jobj .nil)) →
      (∀ x ∈ l, isObjB x = true) →
      ((processIjsonEvents budget ((l.map (ijsonVal "item".toList)).flatten) st).err = true ∨
       ((processIjsonEvents budget ((l.map (ijsonVal "item".toList)).flatten) st).inArray
          = true ∧
        (processIjsonEvents budget
          ((l.map (ijsonVal "item".toList)).flatten) st).currentObject = .jobj .nil))
  | [], st, h, _ => by simpa [processIjsonEvents] using h
  | x :: t, st, h, hobj => by
    simp only [List.map_cons, List.flatten_cons]
    rw [processIjson_append budget _ _ st
      (ijsonVal_pfx_ne x "item".toList (by decide))]
    by_cases herr : st.err = true
    · rw [processIjson_err budget _ st herr]
      exact processIjson_elems_inv budget t st (Or.inl herr)
        (fun y hy => hobj y (List.mem_cons_of_mem x hy))
    · simp only [Bool.not_eq_true] at herr
      rcases h with h | ⟨hA, _⟩
      · rw [h] at herr; cases herr
      · obtain ⟨mx, rfl⟩ : ∃ mm, x = J.jobj mm := by
          have := hobj x (List.mem_cons_self x t)
          cases x <;> simp [isObjB] at this ⊢
        exact processIjson_elems_inv budget t _
          (processIjson_obj_elem budget mx st hA herr)
          (fun y hy => hobj y (List.mem_cons_of_mem _ hy))

/-- The event segment of an empty-object element `{}` is a no-op on any
state satisfying the invariant: the element is discarded. -/
theorem processIjson_empty_obj (budget : Nat) (st : IjsonState)
    (h : st.err = true ∨ (st.inArray = true ∧ st.currentObject = .jobj .nil)) :
    processIjsonEvents budget (ijsonVal "item".toList (.jobj .nil)) st = st := by
  by_cases herr : st.err = true
  · exact processIjson_err budget _ st herr
  · simp only [Bool.not_eq_true] at herr
    rcases h with h | ⟨hA, hcur⟩
    · rw [h] at herr; cases herr
    · have hval : ijsonVal "item".toList (.jobj .nil)
          = ⟨"item".toList, "start_map", .null⟩ ::
            [(⟨"item".toList, "end_map", .null⟩ : Ev)] := rfl
      rw [hval, processIjson_cons_noBreak budget ⟨"item".toList, "start_map", .null⟩ _ _
        (by decide)]
      rw [step_start_map_resets budget st ⟨"item".toList, "start_map", .null⟩ herr hA
        (by decide) rfl (by decide)]
      have hst : ({ st with currentObject := J.jobj .nil } : IjsonState) = st := by
        rw [← hcur]
      rw [hst, processIjson_cons_noBreak budget ⟨"item".toList, "end_map", .null⟩ _ _
        (by decide)]
      rw [step_end_map_empty budget st ⟨"item".toList, "end_map", .null⟩ herr hA
        (by decide) rfl (by decide) hcur]
      rfl

/-- C8: a source-array element that is an empty object `{}` is invisible to
the ijson pipeline — at its top-level `end_map` the accumulated container
is empty and is discarded, so the whole run (chunks written, per-chunk
contents and sizes, and the total record count) is identical to the run on
the same array without that element. The elements before the insertion
point are top-level objects, as in every input this pipeline consumes. -/
theorem C8_empty_object_element_is_discarded (budget : Nat) (l₁ l₂ : List J)
    (h : ∀ x ∈ l₁, isObjB x = true) :
    runIjsonChunkFile budget (docEvents (l₁ ++ .jobj .nil :: l₂))
      = runIjsonChunkFile budget (docEvents (l₁ ++ l₂)) := by
  suffices hproc : processIjsonEvents budget (docEvents (l₁ ++ .jobj .nil :: l₂)) initIjson
      = processIjsonEvents budget (docEvents (l₁ ++ l₂)) initIjson by
    unfold runIjsonChunkFile
    rw [hproc]
  have hstep0 : stepIjsonEv budget initIjson ⟨[], "start_array", .null⟩
      = { initIjson with inArray := true } := by
    simp [stepIjsonEv, initIjson]
  unfold docEvents
  simp only [List.cons_append]
  rw [processIjson_cons_noBreak budget ⟨[], "start_array", .null⟩ _ _ (by decide),
    processIjson_cons_noBreak budget ⟨[], "start_array", .null⟩ _ _ (by decide), hstep0]
  simp only [List.map_append, List.map_cons, List.flatten_append, List.flatten_cons,
    List.append_assoc]
  rw [processIjson_append budget _ _ _ (flatElems_pfx_ne l₁),
    processIjson_append budget _ _ _ (flatElems_pfx_ne l₁)]
  have hinv0 : ({ initIjson with inArray := true } : IjsonState).err = true ∨
      (({ initIjson with inArray := true } : IjsonState).inArray = true ∧
       ({ initIjson with inArray := true } : IjsonState).currentObject = .jobj .nil) :=
    Or.inr ⟨rfl, rfl⟩
  have hinv1 := processIjson_elems_inv budget l₁ _ hinv0 h
  rw [processIjson_append budget _ _ _
    (ijsonVal_pfx_ne (.jobj .nil) "item".toList (by decide))]
  rw [processIjson_empty_obj budget _ hinv1]

/-- C8 witness: inserting `{}` after `{"a": 1}` leaves the run unchanged. -/
theorem C8_empty_object_element_is_discarded_witness :
    runIjsonChunkFile 100 (docEvents
      [.jobj (.cons "a".toList (.jnum 1) .nil), .jobj .nil])
      = runIjsonChunkFile 100 (docEvents [.jobj (.cons "a".toList (.jnum 1) .nil)]) :=
  C8_empty_object_element_is_discarded 100
    [.jobj (.cons "a".toList (.jnum 1) .nil)] [] (by decide)

end AIR
